import Mathlib

/-!
Shallow embedding of the StOBGA obstacle-avoiding Steiner-tree solver
(src/src/main.rs) and proofs about its specification.

Machine floats (`f32`) are modelled by exact rationals `ℚ`; round-off is
abstracted away.  The crate modules `geometry`, `corners`, `util` and `graph`
are not part of the sources; the primitives they export
(`euclidean_distance`, `intersection_length`, `point_in_polygon`,
`fermat_point`, `overlap`) are either modelled from the spec or abstracted
as function parameters constrained by the spec's stated contracts.
-/

/-- a location in 2D (main.rs line 29, `type Point = (f32, f32)`). -/
abbrev Point : Type := ℚ × ℚ

/-- the zero point, used as a default for total list indexing. -/
def ptZero : Point := (0, 0)

/-- main.rs line 31: `const POPULATION_SIZE: usize = 500`. -/
def POPULATION_SIZE : ℕ := 500

/-- main.rs line 38: `const NUMBER_OFFSPRING: usize = POPULATION_SIZE / 3`. -/
def NUMBER_OFFSPRING : ℕ := POPULATION_SIZE / 3

/-- main.rs line 44: `const INF: f32 = 1e10`, the impassable-obstacle sentinel. -/
def INF : ℚ := 10 ^ 10

/-- axis-aligned bounding box (`geometry::Bounds`, used throughout main.rs). -/
structure Bounds where
  min_x : ℚ
  min_y : ℚ
  max_x : ℚ
  max_y : ℚ
deriving DecidableEq

/-- main.rs lines 895-900: an obstacle is a weight, a bounding box and a
polygon given by its corner points. -/
structure Obstacle where
  weight : ℚ
  bounds : Bounds
  points : List Point
deriving DecidableEq

/-- Modelled from the spec: `geometry::overlap` is the axis-aligned
bounding-box overlap test used by `compute_distance` (the `geometry` module
is not among the sources).  Two boxes overlap when they intersect in both
axes. -/
def overlapB (a b : Bounds) : Bool :=
  decide (a.min_x ≤ b.max_x) && decide (b.min_x ≤ a.max_x) &&
  decide (a.min_y ≤ b.max_y) && decide (b.min_y ≤ a.max_y)

/-- main.rs lines 621-626: the bounding box of the segment from `p` to `q`. -/
def lineBounds (p q : Point) : Bounds :=
  ⟨min p.1 q.1, min p.2 q.2, max p.1 q.1, max p.2 q.2⟩

/-- The obstacle loop of `StOBGA::compute_distance` (main.rs lines 627-657):
`il` abstracts `geometry::intersection_length` (not among the sources);
`acc` is the running `length`.  An impassable obstacle met with positive
intersection length sets the length to `INF` and stops the loop (`break`);
a weighted obstacle replaces the unweighted traversal by the weighted one. -/
def computeDistanceLoop (il : Point → Point → List Point → Bounds → ℚ)
    (p q : Point) : List Obstacle → ℚ → ℚ
  | [], acc => acc
  | ob :: rest, acc =>
    if overlapB (lineBounds p q) ob.bounds then
      let ilen := il p q ob.points ob.bounds
      if 0 < ilen then
        if ob.weight = INF then INF
        else computeDistanceLoop il p q rest (acc - ilen + ilen * ob.weight)
      else computeDistanceLoop il p q rest acc
    else computeDistanceLoop il p q rest acc

/-- `StOBGA::compute_distance` (main.rs lines 617-659).  `ed` abstracts
`geometry::euclidean_distance` (not among the sources). -/
def compute_distance (ed : Point → Point → ℚ)
    (il : Point → Point → List Point → Bounds → ℚ)
    (obstacles : List Obstacle) (p q : Point) : ℚ :=
  computeDistanceLoop il p q obstacles (ed p q)

/-- main.rs lines 177-181: a chromosome is a set of Steiner points (an
`IndexSet`, modelled as a list in insertion order) plus a set of active
obstacle-corner indices. -/
structure Chromosome where
  steiner_points : List Point
  included_corners : List ℕ
deriving DecidableEq

/-- `StOBGA::crossover` (main.rs lines 232-306), restricted to the pure
construction of the two children from the parents' chromosomes and the
random vertical split `random_x_value`.  Parent 1's points with
x-coordinate strictly below the split go to child 1, the rest to child 2;
parent 2's points with x-coordinate strictly above the split go to child 1,
the rest to child 2.  A corner index is compared through the coordinate of
the corner it names in `obstacle_corners`. -/
def crossover_children (obstacle_corners : List Point)
    (par1 par2 : Chromosome) (random_x_value : ℚ) : Chromosome × Chromosome :=
  let steiner_points_1 :=
    par1.steiner_points.filter (fun p => decide (p.1 < random_x_value)) ++
    par2.steiner_points.filter (fun p => decide (random_x_value < p.1))
  let steiner_points_2 :=
    par1.steiner_points.filter (fun p => ! decide (p.1 < random_x_value)) ++
    par2.steiner_points.filter (fun p => ! decide (random_x_value < p.1))
  let obstacle_corners_1 :=
    par1.included_corners.filter
      (fun i => decide ((obstacle_corners.getD i ptZero).1 < random_x_value)) ++
    par2.included_corners.filter
      (fun i => decide (random_x_value < (obstacle_corners.getD i ptZero).1))
  let obstacle_corners_2 :=
    par1.included_corners.filter
      (fun i => ! decide ((obstacle_corners.getD i ptZero).1 < random_x_value)) ++
    par2.included_corners.filter
      (fun i => ! decide (random_x_value < (obstacle_corners.getD i ptZero).1))
  (⟨steiner_points_1, obstacle_corners_1⟩, ⟨steiner_points_2, obstacle_corners_2⟩)

/-- The random draws a mutation operator consumes, as an oracle:
`genBool prob` is `rng.gen_bool(prob)` and `genRange n` is
`rng.gen_range(0..n)` (contract: the result is `< n`). -/
structure RandOracle where
  genBool : ℚ → Bool
  genRange : ℕ → ℕ

/-- `f32::clamp` as used in main.rs line 768: values below `lo` become `lo`,
values above `hi` become `hi`. -/
def clampQ (x lo hi : ℚ) : ℚ := if x < lo then lo else if hi < x then hi else x

/-- main.rs line 768: the probability with which the Steiner-point category
is chosen when both candidate sets are non-empty:
`(n as f32 / m as f32).clamp(0.0, 1.0)`. -/
def removeChoiceProb (n m : ℕ) : ℚ := clampQ ((n : ℚ) / (m : ℚ)) 0 1

/-- main.rs lines 730-742: the active Steiner points whose degree in the
individual's MST is at most 2.  `deg` abstracts the degree lookup performed
on the petgraph MST (`graph.edges(id).count()`). -/
def steinerCandidates (deg : Point → ℕ) (ch : Chromosome) : List Point :=
  ch.steiner_points.filter (fun p => decide (deg p ≤ 2))

/-- main.rs lines 743-754: the active corner indices whose corner point has
degree at most 2 in the individual's MST. -/
def cornerCandidates (obstacle_corners : List Point) (deg : Point → ℕ)
    (ch : Chromosome) : List ℕ :=
  ch.included_corners.filter
    (fun i => decide (deg (obstacle_corners.getD i ptZero) ≤ 2))

/-- main.rs lines 762-766 and 769-771: remove one random candidate (index
`rng.gen_range(0..n)` when `n > 1`, else `0`) from the chromosome's
Steiner-point set.  `cs` is the candidate list of length `n`. -/
def removeSteinerResult (rng : RandOracle) (cs : List Point) (ch : Chromosome) :
    Chromosome :=
  ⟨ch.steiner_points.erase
     (cs.getD (if 1 < cs.length then rng.genRange cs.length else 0) ptZero),
   ch.included_corners⟩

/-- main.rs lines 757-761 and 772-776: remove one random candidate corner
index from the chromosome's corner set.  `cc` is the candidate list of
length `m`. -/
def removeCornerResult (rng : RandOracle) (cc : List ℕ) (ch : Chromosome) :
    Chromosome :=
  ⟨ch.steiner_points,
   ch.included_corners.erase
     (cc.getD (if 1 < cc.length then rng.genRange cc.length else 0) 0)⟩

/-- `Individual::mutation_remove_steiner` (main.rs lines 729-780), acting on
the chromosome (the final MST-cache invalidation `minimum_spanning_tree =
None` does not change the chromosome).  The four match arms mirror the Rust
`match (candidate_steiner_points.len(), candidate_corners.len())`: the
`(0, n)` and `(n, 0)` arms of the Rust code are only reached when the
corresponding length is nonzero, written here as a `succ` pattern. -/
def mutation_remove_steiner (obstacle_corners : List Point) (deg : Point → ℕ)
    (rng : RandOracle) (ch : Chromosome) : Chromosome :=
  let candidate_steiner_points := steinerCandidates deg ch
  let candidate_corners := cornerCandidates obstacle_corners deg ch
  match candidate_steiner_points.length, candidate_corners.length with
  | 0, 0 => ch
  | 0, Nat.succ _ => removeCornerResult rng candidate_corners ch
  | Nat.succ _, 0 => removeSteinerResult rng candidate_steiner_points ch
  | Nat.succ _, Nat.succ _ =>
    if rng.genBool (removeChoiceProb candidate_steiner_points.length
        candidate_corners.length) then
      removeSteinerResult rng candidate_steiner_points ch
    else
      removeCornerResult rng candidate_corners ch

/-- `SteinerProblem::coordinates_in_solid_obstacle` (main.rs lines 149-163):
true when the coordinates lie inside some obstacle of weight `INF`.  `pip`
abstracts `geometry::point_in_polygon` (not among the sources). -/
def coordinates_in_solid_obstacle (pip : Point → List Point → Bounds → Bool)
    (obstacles : List Obstacle) (coordinates : Point) : Bool :=
  obstacles.any (fun ob => decide (ob.weight = INF) && pip coordinates ob.points ob.bounds)

/-- `IndexSet::insert`: append the element unless it is already present. -/
def indexSetInsert (l : List Point) (p : Point) : List Point :=
  if p ∈ l then l else l ++ [p]

/-- main.rs lines 818-822: the uniformly drawn degree-violating triple
(`candidates[gen_range(0..len)]` when there is more than one candidate,
else `candidates[0]`). -/
def addSteinerTriple (candidates : List (Point × Point × Point))
    (rng : RandOracle) : Point × Point × Point :=
  candidates.getD (if 1 < candidates.length then rng.genRange candidates.length else 0)
    (ptZero, ptZero, ptZero)

/-- main.rs lines 823-826: the Fermat point of the selected triple.
`fermat` abstracts `geometry::fermat_point` (not among the sources). -/
def addSteinerP4 (fermat : Point → Point → Point → Point)
    (candidates : List (Point × Point × Point)) (rng : RandOracle) : Point :=
  fermat (addSteinerTriple candidates rng).1 (addSteinerTriple candidates rng).2.1
    (addSteinerTriple candidates rng).2.2

/-- `Individual::mutation_add_steiner` (main.rs lines 782-837), acting on
the chromosome.  The enumeration of angle-violating MST triples
(lines 785-805) computes `acos` over floats and is abstracted as the input
list `candidates`; this claim quantifies over both branches regardless of
how the candidates arise.  In the no-candidate branch the operator draws
uniformly random in-bounds points until one lies outside every impassable
obstacle (`draws` is the stream of those draws; `hdraw` states the loop
terminates, i.e. some draw succeeds).  In the Fermat-point branch the new
point is dropped when it lies in a solid obstacle or the minimal distance
to an existing active Steiner point is not above `1e-2` (`Some(x) => x >
1e-2, None => true`, rendered with `List.all`). -/
def mutation_add_steiner (pip : Point → List Point → Bounds → Bool)
    (fermat : Point → Point → Point → Point) (ed : Point → Point → ℚ)
    (obstacles : List Obstacle) (candidates : List (Point × Point × Point))
    (draws : ℕ → Point) (rng : RandOracle) (ch : Chromosome)
    (hdraw : candidates.length = 0 →
      ∃ i, coordinates_in_solid_obstacle pip obstacles (draws i) = false) :
    Chromosome :=
  if h : candidates.length = 0 then
    let new_steiner := draws (Nat.find (hdraw h))
    ⟨indexSetInsert ch.steiner_points new_steiner, ch.included_corners⟩
  else
    let p4 := addSteinerP4 fermat candidates rng
    if coordinates_in_solid_obstacle pip obstacles p4 = false then
      if ch.steiner_points.all (fun s => decide ((1 : ℚ) / 100 < ed s p4)) then
        ⟨indexSetInsert ch.steiner_points p4, ch.included_corners⟩
      else ch
    else ch

/-- The MST wrapper (main.rs lines 204-208): node coordinates, edges given
as (source index, target index, cached edge weight), and the cached
`total_weight`. -/
structure MSTGraph where
  nodes : List Point
  edges : List (ℕ × ℕ × ℚ)
  total_weight : ℚ
deriving DecidableEq

/-- the edges incident to node `i` (petgraph `graph.edges(node)`). -/
def incidentEdges (g : MSTGraph) (i : ℕ) : List (ℕ × ℕ × ℚ) :=
  g.edges.filter (fun e => decide (e.1 = i) || decide (e.2.1 = i))

/-- `graph.edges(node).count()` (main.rs line 362). -/
def degreeAt (g : MSTGraph) (i : ℕ) : ℕ := (incidentEdges g i).length

/-- the other endpoints of the edges incident to `i` (petgraph yields each
incident edge with `i` as source, so `.target()` is the neighbor). -/
def neighborsAt (g : MSTGraph) (i : ℕ) : List ℕ :=
  (incidentEdges g i).map (fun e => if e.1 = i then e.2.1 else e.1)

/-- main.rs lines 360-381: collect, for every node of exact degree 3, the
Fermat point of its three neighbors (read from the unmodified graph), then
write those coordinates back.  The coordinates of every other node are kept. -/
def finalizeNodes (fermat : Point → Point → Point → Point) (g : MSTGraph) :
    List Point :=
  (List.range g.nodes.length).map (fun i =>
    if degreeAt g i = 3 then
      match neighborsAt g i with
      | [a, b, c] =>
        fermat (g.nodes.getD a ptZero) (g.nodes.getD b ptZero) (g.nodes.getD c ptZero)
      | _ => g.nodes.getD i ptZero
    else g.nodes.getD i ptZero)

/-- `StOBGA::finalize` (main.rs lines 355-391) on the best individual's
MST: build the refined copy (same edges, same cached `total_weight` -- the
code never recomputes the weight after moving the nodes), then keep the
copy only if its cached `total_weight` is strictly below the original's. -/
def finalize_step (fermat : Point → Point → Point → Point) (best : MSTGraph) :
    MSTGraph :=
  let best_copy : MSTGraph := ⟨finalizeNodes fermat best, best.edges, best.total_weight⟩
  if best_copy.total_weight < best.total_weight then best_copy else best

/-- the weight the modified tree would have if it were rebuilt from its
(updated) node coordinates: the sum over the tree's edges of the distance
between the endpoints' coordinates. -/
def rebuiltWeight (ed : Point → Point → ℚ) (g : MSTGraph) : ℚ :=
  (g.edges.map (fun e => ed (g.nodes.getD e.1 ptZero) (g.nodes.getD e.2.1 ptZero))).sum

/-- the divisor `(n*(n-1)) as f32` of main.rs line 134 (with `usize`
subtraction as truncated subtraction on ℕ). -/
def atdDivisor (terminals : List Point) : ℚ :=
  ((terminals.length * (terminals.length - 1) : ℕ) : ℚ)

/-- main.rs lines 126-135: `average_terminal_distance` sums
`euclidean_distance(terminals[i], terminals[j])` over all index pairs
`(i, j) ∈ [0,n) × [0,n)` -- including `i = j` -- and divides by `n*(n-1)`,
with no guard against `n ≤ 1`.  `ed` abstracts
`geometry::euclidean_distance` (not among the sources). -/
def average_terminal_distance (ed : Point → Point → ℚ) (terminals : List Point) : ℚ :=
  (((List.range terminals.length).map (fun i =>
      (((List.range terminals.length).map (fun j =>
        ed (terminals.getD i ptZero) (terminals.getD j ptZero))).sum))).sum)
    / atdDivisor terminals

/-- The spec's words (§3): the mean of the euclidean distance over the
`n*(n-1)` ordered pairs of distinct terminals. -/
def spec_average_terminal_distance (ed : Point → Point → ℚ)
    (terminals : List Point) : ℚ :=
  (((List.range terminals.length).map (fun i =>
      (((List.range terminals.length).map (fun j =>
        if i = j then 0
        else ed (terminals.getD i ptZero) (terminals.getD j ptZero))).sum))).sum)
    / ((terminals.length * (terminals.length - 1) : ℕ) : ℚ)

/-- main.rs lines 581-592: the sequential pairing of the shuffled parent
indices -- consecutive entries form a pair; a trailing unpaired index is
never crossed over. -/
def pairUp : List ℕ → List (ℕ × ℕ)
  | a :: b :: rest => (a, b) :: pairUp rest
  | _ => []

/-- main.rs lines 232-306 at the buffer level: each crossover appends the
two children of a pair to the child buffer.  `mk i j` abstracts the pair of
children produced by `crossover(i, j)` (the chromosome-level construction
is `crossover_children`). -/
def crossoverAll {α : Type} (mk : ℕ → ℕ → α × α) : List (ℕ × ℕ) → List α
  | [] => []
  | pr :: rest => (mk pr.1 pr.2).1 :: (mk pr.1 pr.2).2 :: crossoverAll mk rest

/-- main.rs lines 593-595: every buffered child is mutated exactly once
(`mut` abstracts `mutate`, indexed by the child's buffer position). -/
def mutateAll {α : Type} (mutOp : ℕ → α → α) : ℕ → List α → List α
  | _, [] => []
  | i, c :: rest => mutOp i c :: mutateAll mutOp (i + 1) rest

/-- main.rs lines 596-600: remove `rounds` individuals one at a time, each
chosen by elimination-mode tournament selection.  `kill r` abstracts the
index returned by `tournament_select(5, true)` in round `r`; each removal
immediately shrinks the population. -/
def killLoop {α : Type} (kill : ℕ → ℕ) : ℕ → ℕ → List α → List α
  | _, 0, pop => pop
  | r, n + 1, pop => killLoop kill (r + 1) n (pop.eraseIdx (kill r))

/-- `StOBGA::step` (main.rs lines 570-615) at the population level: select
`NUMBER_OFFSPRING` distinct parent indices, pair them, fill the child
buffer by crossover, mutate every child, remove `NUMBER_OFFSPRING`
individuals by elimination tournaments, then append the buffer to the
population (`Vec::append` drains the buffer, leaving it empty).  The final
sort permutes the population and does not change its size. -/
def stepModel {α : Type} (pop : List α) (parents : List ℕ)
    (mk : ℕ → ℕ → α × α) (mutOp : ℕ → α → α) (kill : ℕ → ℕ) :
    List α × List α :=
  let child_buffer := crossoverAll mk (pairUp parents)
  let child_buffer := mutateAll mutOp 0 child_buffer
  let population := killLoop kill 0 NUMBER_OFFSPRING pop
  (population ++ child_buffer, [])

/-- main.rs lines 465-479: the population-filling loop of `StOBGA::new`.
Each iteration appends the two children of one crossover (both mutated) to
the child buffer; as soon as population + buffer reach 500 individuals the
buffer is popped down to exactly `500 - population.len()` and the loop
breaks.  `mk` abstracts one iteration's pair of mutated children; `fuel` is
the loop bound `population_size - (t1 + t2 + t3)`. -/
def initFillLoop {α : Type} (pop : List α) (mk : ℕ → α × α) :
    List α → ℕ → List α
  | buf, 0 => buf
  | buf, fuel + 1 =>
    let buf2 := buf ++ [(mk fuel).1, (mk fuel).2]
    if 500 ≤ pop.length + buf2.length then buf2.take (500 - pop.length)
    else initFillLoop pop mk buf2 fuel

/-- `StOBGA::new` (main.rs lines 393-484) at the population level: `pop` is
the seed pool built by the three seeding strategies (`t1 + t2 + t3`
individuals); the filling loop then tops the population up and the buffer
is appended (and thereby emptied, line 480). -/
def stobgaNew {α : Type} (pop : List α) (mk : ℕ → α × α)
    (population_size : ℕ) : List α × List α :=
  (pop ++ initFillLoop pop mk [] (population_size - pop.length), [])

/-- A concrete MST on which finalization should improve the tree: vertex 0
has degree 3 and moving it onto its neighbor (0,0) strictly reduces the
rebuilt weight (with the discrete metric as the abstract edge distance). -/
def finalizeCounterMST : MSTGraph :=
  ⟨[((0 : ℚ), (10 : ℚ)), (0, 0), (1, 0), (-1, 0)],
   [(0, 1, 10), (0, 2, 11), (0, 3, 11)], 32⟩
theorem lineBounds_symm (p q : Point) : lineBounds p q = lineBounds q p := by
  simp [lineBounds, min_comm, max_comm]

theorem computeDistanceLoop_blocked (il : Point → Point → List Point → Bounds → ℚ)
    (p q : Point) :
    ∀ (obstacles : List Obstacle) (acc : ℚ),
    (∀ ob ∈ obstacles, 0 < il p q ob.points ob.bounds →
      overlapB (lineBounds p q) ob.bounds = true) →
    (∃ ob ∈ obstacles, ob.weight = INF ∧ 0 < il p q ob.points ob.bounds) →
    computeDistanceLoop il p q obstacles acc = INF := by
  intro obstacles
  induction obstacles with
  | nil =>
    intro acc _ hblk
    rcases hblk with ⟨ob, hmem, _⟩
    exact absurd hmem (List.not_mem_nil ob)
  | cons ob rest ih =>
    intro acc hov hblk
    by_cases hb : ob.weight = INF ∧ 0 < il p q ob.points ob.bounds
    · have hovl : overlapB (lineBounds p q) ob.bounds = true :=
        hov ob (List.mem_cons_self ob rest) hb.2
      simp only [computeDistanceLoop, hovl, if_true, hb.1, hb.2, if_pos]
    · have hrest : ∃ o ∈ rest, o.weight = INF ∧ 0 < il p q o.points o.bounds := by
        rcases hblk with ⟨o, hmem, ho⟩
        rcases List.mem_cons.mp hmem with heq | hmem2
        · exact absurd (heq ▸ ho) hb
        · exact ⟨o, hmem2, ho⟩
      have hov2 : ∀ o ∈ rest, 0 < il p q o.points o.bounds →
          overlapB (lineBounds p q) o.bounds = true :=
        fun o hmem => hov o (List.mem_cons_of_mem ob hmem)
      by_cases hovl : overlapB (lineBounds p q) ob.bounds = true
      · by_cases hil : 0 < il p q ob.points ob.bounds
        · have hw : ¬ ob.weight = INF := fun hwi => hb ⟨hwi, hil⟩
          simp only [computeDistanceLoop, hovl, if_true, hil, if_pos, hw, if_false]
          exact ih _ hov2 hrest
        · simp only [computeDistanceLoop, hovl, if_true, hil, if_neg, if_false]
          exact ih _ hov2 hrest
      · simp only [computeDistanceLoop, hovl, if_false]
        exact ih _ hov2 hrest

/-- C4: whenever the segment pq has positive intersection length with at
least one impassable obstacle (weight `INF`), `compute_distance` returns the
sentinel `INF`, independently of any other obstacles the segment crosses.
The hypothesis `hov` is the spec's contract on `intersection_length`
(§4.1: it returns 0 when the segment's box does not overlap the
obstacle's box). -/
theorem compute_distance_blocked (ed : Point → Point → ℚ)
    (il : Point → Point → List Point → Bounds → ℚ)
    (obstacles : List Obstacle) (p q : Point)
    (hov : ∀ ob ∈ obstacles, 0 < il p q ob.points ob.bounds →
      overlapB (lineBounds p q) ob.bounds = true)
    (hblk : ∃ ob ∈ obstacles, ob.weight = INF ∧ 0 < il p q ob.points ob.bounds) :
    compute_distance ed il obstacles p q = INF :=
  computeDistanceLoop_blocked il p q obstacles (ed p q) hov hblk

/-- Witness for C4: one impassable triangular obstacle crossed with
positive intersection length forces the sentinel result. -/
theorem compute_distance_blocked_witness :
    compute_distance (fun _ _ => 7)
      (fun _ _ _ _ => 1)
      [⟨INF, ⟨0, 0, 10, 10⟩, [(0, 0), (10, 0), (5, 10)]⟩]
      (1, 1) (9, 9) = INF :=
  compute_distance_blocked _ _ _ _ _
    (by intro ob hmem _; simp at hmem; subst hmem; decide)
    ⟨⟨INF, ⟨0, 0, 10, 10⟩, [(0, 0), (10, 0), (5, 10)]⟩, by simp, rfl, by decide⟩

theorem computeDistanceLoop_symm (il : Point → Point → List Point → Bounds → ℚ)
    (p q : Point) :
    ∀ (obstacles : List Obstacle) (acc : ℚ),
    (∀ ob ∈ obstacles, il p q ob.points ob.bounds = il q p ob.points ob.bounds) →
    computeDistanceLoop il p q obstacles acc = computeDistanceLoop il q p obstacles acc := by
  intro obstacles
  induction obstacles with
  | nil => intro acc _; rfl
  | cons ob rest ih =>
    intro acc hil
    have hhd : il p q ob.points ob.bounds = il q p ob.points ob.bounds :=
      hil ob (List.mem_cons_self ob rest)
    have htl : ∀ o ∈ rest, il p q o.points o.bounds = il q p o.points o.bounds :=
      fun o hmem => hil o (List.mem_cons_of_mem ob hmem)
    simp only [computeDistanceLoop, lineBounds_symm p q, hhd]
    by_cases hovl : overlapB (lineBounds q p) ob.bounds = true
    · simp only [hovl, if_true]
      by_cases hpos : 0 < il q p ob.points ob.bounds
      · simp only [hpos, if_pos]
        by_cases hw : ob.weight = INF
        · simp [hw]
        · simp only [hw, if_false]
          exact ih _ htl
      · simp only [hpos, if_neg, if_false]
        exact ih _ htl
    · simp only [hovl, if_false]
      exact ih _ htl

/-- C5: the obstacle-aware distance is symmetric.  The hypotheses are the
spec's contracts on the (absent from the sources) geometry primitives:
`euclidean_distance` is the standard 2D distance, hence symmetric, and
`intersection_length p q poly` measures the part of segment pq inside
`poly`, a set symmetric in the two endpoints. -/
theorem compute_distance_symm (ed : Point → Point → ℚ)
    (il : Point → Point → List Point → Bounds → ℚ)
    (obstacles : List Obstacle) (p q : Point)
    (hed : ed p q = ed q p)
    (hil : ∀ ob ∈ obstacles, il p q ob.points ob.bounds = il q p ob.points ob.bounds) :
    compute_distance ed il obstacles p q = compute_distance ed il obstacles q p := by
  unfold compute_distance
  rw [hed]
  exact computeDistanceLoop_symm il p q obstacles (ed q p) hil

/-- Witness for C5 at a concrete pair of points and a concrete weighted
obstacle. -/
theorem compute_distance_symm_witness :
    compute_distance (fun a b => (a.1 - b.1) ^ 2 + (a.2 - b.2) ^ 2)
      (fun _ _ _ _ => 1)
      [⟨5, ⟨0, 0, 4, 4⟩, [(0, 0), (4, 0), (0, 4)]⟩]
      (1, 1) (3, 2)
    = compute_distance (fun a b => (a.1 - b.1) ^ 2 + (a.2 - b.2) ^ 2)
      (fun _ _ _ _ => 1)
      [⟨5, ⟨0, 0, 4, 4⟩, [(0, 0), (4, 0), (0, 4)]⟩]
      (3, 2) (1, 1) :=
  compute_distance_symm _ _ _ _ _ (by ring_nf) (by intro ob _; rfl)

/-- Counterexample for C3: two parents sharing the Steiner point (0,0),
split value 1.  Parent 1 assigns the point to child 1 (its x-coordinate is
below the split) while parent 2 assigns it to child 2 (its x-coordinate is
not above the split), so the children's Steiner-point sets are not
disjoint. -/
theorem crossover_disjoint_counterexample :
    (crossover_children [] ⟨[((0 : ℚ), (0 : ℚ))], []⟩
        ⟨[((0 : ℚ), (0 : ℚ))], []⟩ 1).1.steiner_points.toFinset ∩
      (crossover_children [] ⟨[((0 : ℚ), (0 : ℚ))], []⟩
        ⟨[((0 : ℚ), (0 : ℚ))], []⟩ 1).2.steiner_points.toFinset ≠ ∅ := by
  decide

/-- C3 (amended): crossover always preserves the union of the parents'
Steiner-point sets, and likewise of the corner-index sets; the children's
sets are moreover disjoint provided the two parents' sets are disjoint
(a shared point with x-coordinate different from the split is copied into
both children, so disjointness of the parents is required). -/
theorem crossover_union_disjoint (oc : List Point) (p1 p2 : Chromosome) (s : ℚ) :
    ((crossover_children oc p1 p2 s).1.steiner_points.toFinset ∪
      (crossover_children oc p1 p2 s).2.steiner_points.toFinset =
      p1.steiner_points.toFinset ∪ p2.steiner_points.toFinset)
    ∧ (Disjoint p1.steiner_points.toFinset p2.steiner_points.toFinset →
      Disjoint (crossover_children oc p1 p2 s).1.steiner_points.toFinset
        (crossover_children oc p1 p2 s).2.steiner_points.toFinset)
    ∧ ((crossover_children oc p1 p2 s).1.included_corners.toFinset ∪
      (crossover_children oc p1 p2 s).2.included_corners.toFinset =
      p1.included_corners.toFinset ∪ p2.included_corners.toFinset)
    ∧ (Disjoint p1.included_corners.toFinset p2.included_corners.toFinset →
      Disjoint (crossover_children oc p1 p2 s).1.included_corners.toFinset
        (crossover_children oc p1 p2 s).2.included_corners.toFinset) := by
  refine ⟨?_, ?_, ?_, ?_⟩
  · ext a
    simp only [crossover_children, Finset.mem_union, List.mem_toFinset, List.mem_append,
      List.mem_filter, decide_eq_true_eq, Bool.not_eq_true', decide_eq_false_iff_not]
    by_cases h : a.1 < s <;> by_cases h2 : s < a.1 <;> tauto
  · intro hs
    rw [Finset.disjoint_left]
    intro a ha hb
    have hd : a ∈ p1.steiner_points.toFinset → a ∉ p2.steiner_points.toFinset :=
      fun h1 => Finset.disjoint_left.mp hs h1
    simp only [List.mem_toFinset] at hd
    simp only [crossover_children, List.mem_toFinset, List.mem_append,
      List.mem_filter, decide_eq_true_eq, Bool.not_eq_true', decide_eq_false_iff_not] at ha hb
    tauto
  · ext a
    simp only [crossover_children, Finset.mem_union, List.mem_toFinset, List.mem_append,
      List.mem_filter, decide_eq_true_eq, Bool.not_eq_true', decide_eq_false_iff_not]
    by_cases h : (oc.getD a ptZero).1 < s <;> by_cases h2 : s < (oc.getD a ptZero).1 <;> tauto
  · intro hs
    rw [Finset.disjoint_left]
    intro a ha hb
    have hd : a ∈ p1.included_corners.toFinset → a ∉ p2.included_corners.toFinset :=
      fun h1 => Finset.disjoint_left.mp hs h1
    simp only [List.mem_toFinset] at hd
    simp only [crossover_children, List.mem_toFinset, List.mem_append,
      List.mem_filter, decide_eq_true_eq, Bool.not_eq_true', decide_eq_false_iff_not] at ha hb
    tauto

/-- Witness for C3 (amended): disjoint parents at a concrete split give
disjoint children. -/
theorem crossover_union_disjoint_witness :
    Disjoint
      (crossover_children [((0 : ℚ), (0 : ℚ)), ((2 : ℚ), (2 : ℚ))]
          ⟨[((0 : ℚ), (0 : ℚ))], [0]⟩ ⟨[((2 : ℚ), (2 : ℚ))], [1]⟩ 1).1.steiner_points.toFinset
      (crossover_children [((0 : ℚ), (0 : ℚ)), ((2 : ℚ), (2 : ℚ))]
          ⟨[((0 : ℚ), (0 : ℚ))], [0]⟩ ⟨[((2 : ℚ), (2 : ℚ))], [1]⟩ 1).2.steiner_points.toFinset :=
  (crossover_union_disjoint [((0 : ℚ), (0 : ℚ)), ((2 : ℚ), (2 : ℚ))]
      ⟨[((0 : ℚ), (0 : ℚ))], [0]⟩ ⟨[((2 : ℚ), (2 : ℚ))], [1]⟩ 1).2.1 (by decide)

theorem getD_mem_of_lt {α : Type} (l : List α) (d : α) (idx : ℕ) (h : idx < l.length) :
    l.getD idx d ∈ l := by
  rw [List.getD_eq_getElem l d h]
  exact List.getElem_mem h

theorem eq_of_mem_not_mem_erase {α : Type} [BEq α] [LawfulBEq α] (l : List α) (v a : α)
    (ha : a ∈ l) (hnot : a ∉ l.erase v) : a = v := by
  by_cases h : a = v
  · exact h
  · exact absurd ((List.mem_erase_of_ne h).mpr ha) hnot

theorem mrs_arm_none (oc : List Point) (deg : Point → ℕ) (rng : RandOracle)
    (ch : Chromosome)
    (h1 : (steinerCandidates deg ch).length = 0)
    (h2 : (cornerCandidates oc deg ch).length = 0) :
    mutation_remove_steiner oc deg rng ch = ch := by
  simp only [mutation_remove_steiner, h1, h2]

theorem mrs_arm_corner (oc : List Point) (deg : Point → ℕ) (rng : RandOracle)
    (ch : Chromosome)
    (h1 : (steinerCandidates deg ch).length = 0)
    (h2 : (cornerCandidates oc deg ch).length ≠ 0) :
    mutation_remove_steiner oc deg rng ch =
      removeCornerResult rng (cornerCandidates oc deg ch) ch := by
  obtain ⟨k, hk⟩ := Nat.exists_eq_succ_of_ne_zero h2
  simp only [mutation_remove_steiner, h1, hk]

theorem mrs_arm_steiner (oc : List Point) (deg : Point → ℕ) (rng : RandOracle)
    (ch : Chromosome)
    (h1 : (steinerCandidates deg ch).length ≠ 0)
    (h2 : (cornerCandidates oc deg ch).length = 0) :
    mutation_remove_steiner oc deg rng ch =
      removeSteinerResult rng (steinerCandidates deg ch) ch := by
  obtain ⟨k, hk⟩ := Nat.exists_eq_succ_of_ne_zero h1
  simp only [mutation_remove_steiner, hk, h2]

theorem mrs_arm_both (oc : List Point) (deg : Point → ℕ) (rng : RandOracle)
    (ch : Chromosome)
    (h1 : (steinerCandidates deg ch).length ≠ 0)
    (h2 : (cornerCandidates oc deg ch).length ≠ 0) :
    mutation_remove_steiner oc deg rng ch =
      if rng.genBool (removeChoiceProb (steinerCandidates deg ch).length
          (cornerCandidates oc deg ch).length) then
        removeSteinerResult rng (steinerCandidates deg ch) ch
      else
        removeCornerResult rng (cornerCandidates oc deg ch) ch := by
  obtain ⟨k, hk⟩ := Nat.exists_eq_succ_of_ne_zero h1
  obtain ⟨j, hj⟩ := Nat.exists_eq_succ_of_ne_zero h2
  simp only [mutation_remove_steiner, hk, hj]

/-- C6: the remove-steiner operator never removes an active Steiner point
or active corner whose degree in the individual's MST exceeds 2 (the
candidates are filtered by degree at most 2), and when no active Steiner
point or corner has degree at most 2 the operator leaves the chromosome
unchanged.  `hrng` is the contract of `rng.gen_range(0..k)`. -/
theorem mutation_remove_steiner_degree_safe (oc : List Point) (deg : Point → ℕ)
    (rng : RandOracle) (ch : Chromosome)
    (hrng : ∀ k, 0 < k → rng.genRange k < k) :
    (∀ p ∈ ch.steiner_points,
        p ∉ (mutation_remove_steiner oc deg rng ch).steiner_points → deg p ≤ 2)
    ∧ (∀ i ∈ ch.included_corners,
        i ∉ (mutation_remove_steiner oc deg rng ch).included_corners →
        deg (oc.getD i ptZero) ≤ 2)
    ∧ ((∀ p ∈ ch.steiner_points, 2 < deg p) →
       (∀ i ∈ ch.included_corners, 2 < deg (oc.getD i ptZero)) →
       mutation_remove_steiner oc deg rng ch = ch) := by
  have hidx : ∀ n : ℕ, 0 < n → (if 1 < n then rng.genRange n else 0) < n := by
    intro n hn
    by_cases h1 : 1 < n
    · simpa [h1] using hrng n hn
    · simpa [h1] using hn
  have hscand : ∀ p ∈ steinerCandidates deg ch, deg p ≤ 2 := by
    intro p hp
    exact of_decide_eq_true (List.mem_filter.mp hp).2
  have hccand : ∀ i ∈ cornerCandidates oc deg ch, deg (oc.getD i ptZero) ≤ 2 := by
    intro i hi
    exact of_decide_eq_true (List.mem_filter.mp hi).2
  have hselem : (steinerCandidates deg ch).length ≠ 0 →
      deg ((steinerCandidates deg ch).getD
        (if 1 < (steinerCandidates deg ch).length then
          rng.genRange (steinerCandidates deg ch).length else 0) ptZero) ≤ 2 := by
    intro h
    exact hscand _ (getD_mem_of_lt _ _ _ (hidx _ (Nat.pos_of_ne_zero h)))
  have hcelem : (cornerCandidates oc deg ch).length ≠ 0 →
      deg (oc.getD ((cornerCandidates oc deg ch).getD
        (if 1 < (cornerCandidates oc deg ch).length then
          rng.genRange (cornerCandidates oc deg ch).length else 0) 0) ptZero) ≤ 2 := by
    intro h
    exact hccand _ (getD_mem_of_lt _ _ _ (hidx _ (Nat.pos_of_ne_zero h)))
  refine ⟨?_, ?_, ?_⟩
  · intro p hp hpnot
    by_cases h1 : (steinerCandidates deg ch).length = 0 <;>
      by_cases h2 : (cornerCandidates oc deg ch).length = 0
    · rw [mrs_arm_none oc deg rng ch h1 h2] at hpnot
      exact absurd hp hpnot
    · rw [mrs_arm_corner oc deg rng ch h1 h2] at hpnot
      exact absurd hp hpnot
    · rw [mrs_arm_steiner oc deg rng ch h1 h2] at hpnot
      simp only [removeSteinerResult] at hpnot
      have heq := eq_of_mem_not_mem_erase _ _ _ hp hpnot
      rw [heq]
      exact hselem h1
    · rw [mrs_arm_both oc deg rng ch h1 h2] at hpnot
      rcases hb : rng.genBool (removeChoiceProb (steinerCandidates deg ch).length
          (cornerCandidates oc deg ch).length) <;>
        simp only [hb, if_true, if_false, Bool.false_eq_true,
          removeSteinerResult, removeCornerResult] at hpnot
      · exact absurd hp hpnot
      · have heq := eq_of_mem_not_mem_erase _ _ _ hp hpnot
        rw [heq]
        exact hselem h1
  · intro i hi hinot
    by_cases h1 : (steinerCandidates deg ch).length = 0 <;>
      by_cases h2 : (cornerCandidates oc deg ch).length = 0
    · rw [mrs_arm_none oc deg rng ch h1 h2] at hinot
      exact absurd hi hinot
    · rw [mrs_arm_corner oc deg rng ch h1 h2] at hinot
      simp only [removeCornerResult] at hinot
      have heq := eq_of_mem_not_mem_erase _ _ _ hi hinot
      rw [heq]
      exact hcelem h2
    · rw [mrs_arm_steiner oc deg rng ch h1 h2] at hinot
      exact absurd hi hinot
    · rw [mrs_arm_both oc deg rng ch h1 h2] at hinot
      rcases hb : rng.genBool (removeChoiceProb (steinerCandidates deg ch).length
          (cornerCandidates oc deg ch).length) <;>
        simp only [hb, if_true, if_false, Bool.false_eq_true,
          removeSteinerResult, removeCornerResult] at hinot
      · have heq := eq_of_mem_not_mem_erase _ _ _ hi hinot
        rw [heq]
        exact hcelem h2
      · exact absurd hi hinot
  · intro hs hc
    have h1 : steinerCandidates deg ch = [] := by
      refine List.filter_eq_nil_iff.mpr ?_
      intro a ha
      have := hs a ha
      simp only [decide_eq_true_eq]
      omega
    have h2 : cornerCandidates oc deg ch = [] := by
      refine List.filter_eq_nil_iff.mpr ?_
      intro a ha
      have := hc a ha
      simp only [decide_eq_true_eq]
      omega
    exact mrs_arm_none oc deg rng ch (by rw [h1]; rfl) (by rw [h2]; rfl)

/-- Witness for C6: a chromosome whose only Steiner point and only corner
both have MST degree 3 is left unchanged. -/
theorem mutation_remove_steiner_degree_safe_witness :
    mutation_remove_steiner [((7 : ℚ), (7 : ℚ))] (fun _ => 3)
      ⟨fun _ => true, fun _ => 0⟩ ⟨[((5 : ℚ), (5 : ℚ))], [0]⟩
    = ⟨[((5 : ℚ), (5 : ℚ))], [0]⟩ :=
  (mutation_remove_steiner_degree_safe [((7 : ℚ), (7 : ℚ))] (fun _ => 3)
      ⟨fun _ => true, fun _ => 0⟩ ⟨[((5 : ℚ), (5 : ℚ))], [0]⟩
      (fun _ hk => hk)).2.2 (by decide) (by decide)

/-- Counterexample for C2: with one Steiner candidate and one corner
candidate (n = m = 1) the code consults `gen_bool` with probability
`(n/m).clamp(0,1) = 1` and removes the Steiner point, whereas the claimed
probability `n/(n+m) = 1/2` draws `false` on the same random oracle (which
answers `true` exactly for arguments at least 1), which would have removed a
corner; and `(n/m).clamp(0,1) ≠ n/(n+m)` at this input. -/
theorem mutation_remove_steiner_prob_counterexample :
    mutation_remove_steiner [((7 : ℚ), (7 : ℚ))] (fun _ => 1)
      ⟨fun q => decide (1 ≤ q), fun _ => 0⟩ ⟨[((5 : ℚ), (5 : ℚ))], [0]⟩
      = ⟨[], [0]⟩
    ∧ RandOracle.genBool ⟨fun q => decide (1 ≤ q), fun _ => 0⟩
        ((1 : ℚ) / (1 + 1)) = false
    ∧ removeChoiceProb 1 1 ≠ (1 : ℚ) / (1 + 1) := by
  have hp : removeChoiceProb 1 1 = 1 := by
    norm_num [removeChoiceProb, clampQ]
  have hlen1 : (steinerCandidates (fun _ => 1)
      ⟨[((5 : ℚ), (5 : ℚ))], [0]⟩).length = 1 := by decide
  have hlen2 : (cornerCandidates [((7 : ℚ), (7 : ℚ))] (fun _ => 1)
      ⟨[((5 : ℚ), (5 : ℚ))], [0]⟩).length = 1 := by decide
  refine ⟨?_, ?_, ?_⟩
  · rw [mrs_arm_both _ _ _ _ (by decide) (by decide), hlen1, hlen2, hp]
    decide
  · have h2 : ¬ ((1 : ℚ) ≤ 1 / (1 + 1)) := by norm_num
    simpa using h2
  · rw [hp]
    norm_num

/-- C2 (amended): when both candidate sets are non-empty, the
Steiner-point category is chosen by a Bernoulli draw with probability
`(n/m).clamp(0,1)` (main.rs line 768) -- not `n/(n+m)` -- and one
uniformly-random candidate (`gen_range` index when the category has more
than one candidate) of the chosen category is removed. -/
theorem mutation_remove_steiner_category_choice (oc : List Point)
    (deg : Point → ℕ) (rng : RandOracle) (ch : Chromosome)
    (h1 : (steinerCandidates deg ch).length ≠ 0)
    (h2 : (cornerCandidates oc deg ch).length ≠ 0) :
    mutation_remove_steiner oc deg rng ch =
      if rng.genBool (removeChoiceProb (steinerCandidates deg ch).length
          (cornerCandidates oc deg ch).length) then
        removeSteinerResult rng (steinerCandidates deg ch) ch
      else
        removeCornerResult rng (cornerCandidates oc deg ch) ch :=
  mrs_arm_both oc deg rng ch h1 h2

/-- Witness for C2 (amended) at a concrete chromosome with one candidate
of each category. -/
theorem mutation_remove_steiner_category_choice_witness :
    mutation_remove_steiner [((7 : ℚ), (7 : ℚ))] (fun _ => 1)
      ⟨fun _ => false, fun _ => 0⟩ ⟨[((5 : ℚ), (5 : ℚ))], [0]⟩
    = if RandOracle.genBool ⟨fun _ => false, fun _ => 0⟩
          (removeChoiceProb
            (steinerCandidates (fun _ => 1) ⟨[((5 : ℚ), (5 : ℚ))], [0]⟩).length
            (cornerCandidates [((7 : ℚ), (7 : ℚ))] (fun _ => 1)
              ⟨[((5 : ℚ), (5 : ℚ))], [0]⟩).length) then
        removeSteinerResult ⟨fun _ => false, fun _ => 0⟩
          (steinerCandidates (fun _ => 1) ⟨[((5 : ℚ), (5 : ℚ))], [0]⟩)
          ⟨[((5 : ℚ), (5 : ℚ))], [0]⟩
      else
        removeCornerResult ⟨fun _ => false, fun _ => 0⟩
          (cornerCandidates [((7 : ℚ), (7 : ℚ))] (fun _ => 1)
            ⟨[((5 : ℚ), (5 : ℚ))], [0]⟩)
          ⟨[((5 : ℚ), (5 : ℚ))], [0]⟩ :=
  mutation_remove_steiner_category_choice [((7 : ℚ), (7 : ℚ))] (fun _ => 1)
    ⟨fun _ => false, fun _ => 0⟩ ⟨[((5 : ℚ), (5 : ℚ))], [0]⟩
    (by decide) (by decide)

/-- C9: for at least two terminals, the constructor's
`average_terminal_distance` (a sum over all ordered index pairs, including
the diagonal) equals the spec's mean over the `n*(n-1)` ordered pairs of
distinct terminals, because the diagonal contributes `ed p p = 0` (the
spec's contract for the euclidean distance, which is not among the
sources). -/
theorem average_terminal_distance_spec (ed : Point → Point → ℚ)
    (terminals : List Point)
    (hself : ∀ p : Point, ed p p = 0) (_h2 : 2 ≤ terminals.length) :
    average_terminal_distance ed terminals =
      spec_average_terminal_distance ed terminals := by
  unfold average_terminal_distance spec_average_terminal_distance atdDivisor
  refine congrArg (fun x => x / ((terminals.length * (terminals.length - 1) : ℕ) : ℚ)) ?_
  refine congrArg List.sum (List.map_congr_left ?_)
  intro i hi
  refine congrArg List.sum (List.map_congr_left ?_)
  intro j hj
  by_cases h : i = j
  · subst h
    simp [hself]
  · simp [h]

/-- Witness for C9 on two concrete terminals. -/
theorem average_terminal_distance_spec_witness :
    average_terminal_distance
      (fun p q => (p.1 - q.1) ^ 2 + (p.2 - q.2) ^ 2)
      [((0 : ℚ), (0 : ℚ)), ((1 : ℚ), (0 : ℚ))]
    = spec_average_terminal_distance
      (fun p q => (p.1 - q.1) ^ 2 + (p.2 - q.2) ^ 2)
      [((0 : ℚ), (0 : ℚ)), ((1 : ℚ), (0 : ℚ))] :=
  average_terminal_distance_spec _ _ (fun p => by ring) (by decide)

/-- C10: with exactly one terminal the divisor `n*(n-1)` is 0 and the
unguarded division is performed anyway; in this exact-arithmetic model the
division by zero collapses to the junk value 0 (in the Rust code the
corresponding `f32` computation is `0.0 / 0.0`, i.e. NaN), so no
well-defined finite average exists. -/
theorem average_terminal_distance_single_terminal (ed : Point → Point → ℚ)
    (t : Point) :
    atdDivisor [t] = 0 ∧ average_terminal_distance ed [t] = 0 := by
  constructor
  · simp [atdDivisor]
  · simp [average_terminal_distance, atdDivisor]

/-- C1 (code bug): `finalize` builds the refined copy but never recomputes
its `total_weight`; the guard compares the copied weight with itself, which
is never strictly smaller, so the refinement is always discarded --
`finalize_step` is the identity for every Fermat-point function and every
MST.  At `finalizeCounterMST` a degree-3 vertex exists and the genuinely
rebuilt weight of the refined tree is strictly smaller, yet the original
tree is kept. -/
theorem finalize_discards_refinement :
    (∀ (fermat : Point → Point → Point → Point) (best : MSTGraph),
        finalize_step fermat best = best)
    ∧ degreeAt finalizeCounterMST 0 = 3
    ∧ rebuiltWeight (fun p q => if p = q then 0 else 1)
        ⟨finalizeNodes (fun _ _ _ => ptZero) finalizeCounterMST,
         finalizeCounterMST.edges, finalizeCounterMST.total_weight⟩
      < rebuiltWeight (fun p q => if p = q then 0 else 1) finalizeCounterMST := by
  refine ⟨?_, ?_, ?_⟩
  · intro fermat best
    unfold finalize_step
    simp
  · decide
  · have h1 : finalizeNodes (fun _ _ _ => ptZero) finalizeCounterMST
        = [ptZero, (0, 0), (1, 0), (-1, 0)] := by
      decide
    rw [h1]
    unfold rebuiltWeight finalizeCounterMST
    norm_num [ptZero, Prod.ext_iff]

theorem mem_indexSetInsert (l : List Point) (x p : Point)
    (hp : p ∈ indexSetInsert l x) : p ∈ l ∨ p = x := by
  unfold indexSetInsert at hp
  by_cases h : x ∈ l
  · simp only [h, if_true] at hp
    exact Or.inl hp
  · simp only [h, if_false] at hp
    rcases List.mem_append.mp hp with h1 | h2
    · exact Or.inl h1
    · exact Or.inr (List.mem_singleton.mp h2)

/-- C7: the add-steiner operator never inserts a Steiner point inside an
impassable obstacle: every point of the mutated chromosome either was
already active or lies outside every solid obstacle (in the no-candidate
branch the random point is resampled until outside, in the Fermat-point
branch a point inside a solid obstacle is a no-op); moreover a Fermat point
within `1e-2` of an existing active Steiner point is also a no-op. -/
theorem mutation_add_steiner_no_solid (pip : Point → List Point → Bounds → Bool)
    (fermat : Point → Point → Point → Point) (ed : Point → Point → ℚ)
    (obstacles : List Obstacle) (candidates : List (Point × Point × Point))
    (draws : ℕ → Point) (rng : RandOracle) (ch : Chromosome)
    (hdraw : candidates.length = 0 →
      ∃ i, coordinates_in_solid_obstacle pip obstacles (draws i) = false) :
    (∀ p ∈ (mutation_add_steiner pip fermat ed obstacles candidates draws rng
        ch hdraw).steiner_points,
      p ∈ ch.steiner_points ∨ coordinates_in_solid_obstacle pip obstacles p = false)
    ∧ (candidates.length ≠ 0 →
        coordinates_in_solid_obstacle pip obstacles
          (addSteinerP4 fermat candidates rng) = true →
        mutation_add_steiner pip fermat ed obstacles candidates draws rng ch hdraw = ch)
    ∧ (candidates.length ≠ 0 →
        (∃ s ∈ ch.steiner_points, ed s (addSteinerP4 fermat candidates rng) ≤ 1 / 100) →
        mutation_add_steiner pip fermat ed obstacles candidates draws rng ch hdraw = ch) := by
  refine ⟨?_, ?_, ?_⟩
  · intro p hp
    by_cases h : candidates.length = 0
    · simp only [mutation_add_steiner, dif_pos h] at hp
      rcases mem_indexSetInsert _ _ _ hp with h1 | h2
      · exact Or.inl h1
      · rw [h2]
        exact Or.inr (Nat.find_spec (hdraw h))
    · simp only [mutation_add_steiner, dif_neg h] at hp
      rcases hc : coordinates_in_solid_obstacle pip obstacles
          (addSteinerP4 fermat candidates rng) with _ | _
      · simp only [hc, if_pos] at hp
        by_cases ha : ch.steiner_points.all
            (fun s => decide ((1 : ℚ) / 100 < ed s (addSteinerP4 fermat candidates rng)))
        · simp only [ha, if_true] at hp
          rcases mem_indexSetInsert _ _ _ hp with h1 | h2
          · exact Or.inl h1
          · rw [h2]
            exact Or.inr hc
        · simp only [ha, if_false] at hp
          exact Or.inl hp
      · simp only [hc, Bool.true_eq_false, if_false] at hp
        exact Or.inl hp
  · intro h hc
    simp only [mutation_add_steiner, dif_neg h, hc]
    simp
  · intro h hex
    have hall : ch.steiner_points.all
        (fun s => decide ((1 : ℚ) / 100 < ed s (addSteinerP4 fermat candidates rng))) = false := by
      rcases hex with ⟨s, hs, hle⟩
      rcases hv : ch.steiner_points.all
          (fun s => decide ((1 : ℚ) / 100 < ed s (addSteinerP4 fermat candidates rng))) with _ | _
      · rfl
      · have := List.all_eq_true.mp hv s hs
        simp only [decide_eq_true_eq] at this
        exact absurd hle (not_le.mpr this)
    simp only [mutation_add_steiner, dif_neg h, hall]
    rcases hc : coordinates_in_solid_obstacle pip obstacles
        (addSteinerP4 fermat candidates rng) with _ | _
    · simp [hc]
    · simp [hc]

/-- Witness for C7: with a degree-violating candidate whose Fermat point
is at distance 0 from the already-active Steiner point, the mutation is a
no-op. -/
theorem mutation_add_steiner_no_solid_witness :
    mutation_add_steiner (fun _ _ _ => true) (fun a _ _ => a) (fun _ _ => 0) []
      [(ptZero, ptZero, ptZero)] (fun _ => ptZero) ⟨fun _ => true, fun _ => 0⟩
      ⟨[ptZero], []⟩ (fun _ => ⟨0, rfl⟩)
    = ⟨[ptZero], []⟩ :=
  (mutation_add_steiner_no_solid (fun _ _ _ => true) (fun a _ _ => a) (fun _ _ => 0) []
      [(ptZero, ptZero, ptZero)] (fun _ => ptZero) ⟨fun _ => true, fun _ => 0⟩
      ⟨[ptZero], []⟩ (fun _ => ⟨0, rfl⟩)).2.2 (by decide)
    ⟨ptZero, List.mem_cons_self _ _, by norm_num⟩

theorem pairUp_length : (l : List ℕ) → (pairUp l).length = l.length / 2
  | [] => rfl
  | [_] => by
    simp only [pairUp, List.length_nil, List.length_cons]
  | _ :: _ :: rest => by
    have ih := pairUp_length rest
    simp only [pairUp, List.length_cons, ih]
    omega

theorem crossoverAll_length {α : Type} (mk : ℕ → ℕ → α × α) :
    ∀ l : List (ℕ × ℕ), (crossoverAll mk l).length = 2 * l.length := by
  intro l
  induction l with
  | nil => rfl
  | cons pr rest ih =>
    simp only [crossoverAll, List.length_cons, ih]
    omega

theorem mutateAll_length {α : Type} (mutOp : ℕ → α → α) :
    ∀ (i : ℕ) (l : List α), (mutateAll mutOp i l).length = l.length := by
  intro i l
  induction l generalizing i with
  | nil => rfl
  | cons c rest ih =>
    simp only [mutateAll, List.length_cons, ih]

theorem killLoop_length {α : Type} (kill : ℕ → ℕ) :
    ∀ (n r : ℕ) (pop : List α),
    (∀ i < n, kill (r + i) < pop.length - i) →
    (killLoop kill r n pop).length = pop.length - n := by
  intro n
  induction n with
  | zero => intro r pop _; simp [killLoop]
  | succ n ih =>
    intro r pop h
    have h0 : kill r < pop.length := by
      have := h 0 (Nat.succ_pos n)
      simpa using this
    have hlen : (pop.eraseIdx (kill r)).length = pop.length - 1 := by
      rw [List.length_eraseIdx]
      simp [h0]
    simp only [killLoop]
    rw [ih (r + 1) (pop.eraseIdx (kill r)) ?_]
    · omega
    · intro i hi
      have := h (i + 1) (by omega)
      rw [hlen]
      have harith : r + 1 + i = r + (i + 1) := by omega
      rw [harith]
      omega

theorem initFillLoop_length {α : Type} (pop : List α) (mk : ℕ → α × α) :
    ∀ (fuel : ℕ) (buf : List α),
    500 ≤ pop.length + buf.length + 2 * fuel →
    pop.length + buf.length ≤ 500 →
    (initFillLoop pop mk buf fuel).length = 500 - pop.length := by
  intro fuel
  induction fuel with
  | zero =>
    intro buf h1 h2
    simp only [initFillLoop]
    omega
  | succ fuel ih =>
    intro buf h1 h2
    simp only [initFillLoop, List.length_append]
    by_cases hc : 500 ≤ pop.length + (buf.length + 2)
    · rw [if_pos (by simpa using hc)]
      rw [List.length_take]
      simp only [List.length_append, List.length_cons, List.length_nil]
      omega
    · rw [if_neg (by simpa using hc)]
      rw [ih (buf ++ [(mk fuel).1, (mk fuel).2]) ?_ ?_] <;>
        simp only [List.length_append, List.length_cons, List.length_nil] <;> omega

/-- C8: after population initialization (`StOBGA::new`: seed pool of
`t1+t2+t3` individuals topped up by the crossover-and-mutate filling loop,
then the buffer is appended) and after every generation step
(`StOBGA::step`: 166 children bred from 83 pairs, 166 individuals
eliminated, buffer appended) the population size is exactly
`POPULATION_SIZE = 500` and the child buffer is empty.  The oracles
abstract the randomized choices; `hkill` is the contract that every
elimination tournament returns an index of the (shrinking) population. -/
theorem population_size_invariant {α : Type} (pop0 : List α) (mk0 : ℕ → α × α)
    (pop : List α) (parents : List ℕ) (mk : ℕ → ℕ → α × α)
    (mutOp : ℕ → α → α) (kill : ℕ → ℕ)
    (_h0 : 1 ≤ pop0.length) (h0b : pop0.length ≤ POPULATION_SIZE)
    (hp : pop.length = POPULATION_SIZE) (hpar : parents.length = NUMBER_OFFSPRING)
    (hkill : ∀ i < NUMBER_OFFSPRING, kill i < POPULATION_SIZE - i) :
    ((stobgaNew pop0 mk0 POPULATION_SIZE).1.length = POPULATION_SIZE
      ∧ (stobgaNew pop0 mk0 POPULATION_SIZE).2 = [])
    ∧ ((stepModel pop parents mk mutOp kill).1.length = POPULATION_SIZE
      ∧ (stepModel pop parents mk mutOp kill).2 = []) := by
  have hps : POPULATION_SIZE = 500 := rfl
  have hno : NUMBER_OFFSPRING = 166 := rfl
  constructor
  · constructor
    · simp only [stobgaNew, List.length_append]
      rw [initFillLoop_length pop0 mk0 (POPULATION_SIZE - pop0.length) []]
      · omega
      · simp only [List.length_nil]
        omega
      · simp only [List.length_nil]
        omega
    · rfl
  · constructor
    · simp only [stepModel, List.length_append]
      rw [killLoop_length kill NUMBER_OFFSPRING 0 pop ?_]
      · rw [mutateAll_length, crossoverAll_length, pairUp_length, hpar]
        omega
      · intro i hi
        have := hkill i hi
        simp only [Nat.zero_add]
        omega
    · rfl

/-- Witness for C8 on a concrete seeded population of unit individuals. -/
theorem population_size_invariant_witness :
    ((stobgaNew [()] (fun _ => ((), ())) POPULATION_SIZE).1.length = POPULATION_SIZE
      ∧ (stobgaNew [()] (fun _ => ((), ())) POPULATION_SIZE).2 = [])
    ∧ ((stepModel (List.replicate 500 ()) (List.range 166) (fun _ _ => ((), ()))
          (fun _ x => x) (fun _ => 0)).1.length = POPULATION_SIZE
      ∧ (stepModel (List.replicate 500 ()) (List.range 166) (fun _ _ => ((), ()))
          (fun _ x => x) (fun _ => 0)).2 = []) :=
  population_size_invariant [()] (fun _ => ((), ())) (List.replicate 500 ())
    (List.range 166) (fun _ _ => ((), ())) (fun _ x => x) (fun _ => 0)
    (by decide) (by decide)
    (by rw [List.length_replicate]; decide)
    (by rw [List.length_range]; decide)
    (by
      intro i hi
      simp only [NUMBER_OFFSPRING, POPULATION_SIZE] at hi ⊢
      omega)
